import Mathlib

set_option maxHeartbeats 1000000

/-!
Shallow embedding of the BITS-IR-PROJECT indexing and retrieval core
(`construct_index.py`, `helper_module.py`, `test_queries.py`).

Python dictionaries are modelled as association lists `List (String × α)`
with insertion-order-preserving update (`dset`), lookup (`dget?` / `dgetD`)
and key listing (`dkeys`), matching CPython dict semantics: updating an
existing key keeps its position, a new key is appended at the end.
Python floats are modelled as real numbers, `math.log(x, 10)` as
`Real.logb 10 x` and `x ** 0.5` on a nonnegative float as `Real.sqrt x`.
-/

/-- Lookup in a Python-dict model: the value of the first entry with the
given key (`m[k]` / `k in m`). -/
def dget? {α : Type} : List (String × α) → String → Option α
  | [], _ => none
  | p :: rest, k => if p.1 = k then some p.2 else dget? rest k

/-- Lookup with a default value, modelling `m.get(k, d)`. -/
def dgetD {α : Type} (m : List (String × α)) (k : String) (d : α) : α :=
  (dget? m k).getD d

/-- Update or insert, modelling `m[k] = v`: replaces the first entry with the
given key if present, otherwise appends a new entry at the end. -/
def dset {α : Type} : List (String × α) → String → α → List (String × α)
  | [], k, v => [(k, v)]
  | p :: rest, k, v => if p.1 = k then (k, v) :: rest else p :: dset rest k v

/-- Key list of a dict model, in insertion order (`list(m)` / `set(m)`). -/
def dkeys {α : Type} (m : List (String × α)) : List String :=
  m.map Prod.fst

theorem dget?_dset_self {α : Type} (m : List (String × α)) (k : String) (v : α) :
    dget? (dset m k v) k = some v := by
  induction m with
  | nil => simp [dset, dget?]
  | cons p rest ih =>
    by_cases h : p.1 = k
    · simp [dset, h, dget?]
    · simp [dset, h, dget?, ih]

theorem dget?_dset_ne {α : Type} (m : List (String × α)) {k k' : String} (v : α)
    (h : k' ≠ k) : dget? (dset m k v) k' = dget? m k' := by
  induction m with
  | nil => simp [dset, dget?, Ne.symm h]
  | cons p rest ih =>
    by_cases hp : p.1 = k
    · subst hp
      simp [dset, dget?, Ne.symm h]
    · simp [dset, hp, dget?, ih]

theorem dkeys_dset_of_mem {α : Type} (m : List (String × α)) (k : String) (v : α)
    (h : k ∈ dkeys m) : dkeys (dset m k v) = dkeys m := by
  induction m with
  | nil => simp [dkeys] at h
  | cons p rest ih =>
    by_cases hp : p.1 = k
    · simp [dset, hp, dkeys]
    · have h' : k ∈ dkeys rest := by
        simp [dkeys] at h ⊢
        rcases h with h | h
        · exact absurd h.symm hp
        · exact h
      have hrec := ih h'
      simp only [dset, if_neg hp]
      simp only [dkeys, List.map_cons] at hrec ⊢
      rw [hrec]

theorem dkeys_dset_of_not_mem {α : Type} (m : List (String × α)) (k : String) (v : α)
    (h : k ∉ dkeys m) : dkeys (dset m k v) = dkeys m ++ [k] := by
  induction m with
  | nil => simp [dset, dkeys]
  | cons p rest ih =>
    have hp : p.1 ≠ k := by
      intro hh
      exact h (by simp [dkeys, hh])
    have h' : k ∉ dkeys rest := by
      intro hh
      apply h
      simp [dkeys] at hh ⊢
      right
      exact hh
    have hrec := ih h'
    simp only [dset, if_neg hp]
    simp only [dkeys, List.map_cons] at hrec ⊢
    rw [hrec, List.cons_append]

theorem mem_dkeys_dset {α : Type} (m : List (String × α)) (k a : String) (v : α) :
    a ∈ dkeys (dset m k v) ↔ a ∈ dkeys m ∨ a = k := by
  by_cases hk : k ∈ dkeys m
  · rw [dkeys_dset_of_mem m k v hk]
    constructor
    · exact Or.inl
    · rintro (h | h)
      · exact h
      · rw [h]; exact hk
  · rw [dkeys_dset_of_not_mem m k v hk]
    simp

theorem nodup_dkeys_dset {α : Type} (m : List (String × α)) (k : String) (v : α)
    (h : (dkeys m).Nodup) : (dkeys (dset m k v)).Nodup := by
  by_cases hk : k ∈ dkeys m
  · rw [dkeys_dset_of_mem m k v hk]; exact h
  · rw [dkeys_dset_of_not_mem m k v hk]
    simp [List.nodup_append, h, hk]

theorem dget?_isSome_iff {α : Type} (m : List (String × α)) (k : String) :
    (dget? m k).isSome ↔ k ∈ dkeys m := by
  induction m with
  | nil => simp [dget?, dkeys]
  | cons p rest ih =>
    by_cases h : p.1 = k
    · simp [dget?, h, dkeys]
    · simp [dget?, h, dkeys, Ne.symm h] at ih ⊢
      exact ih

theorem dget?_eq_none_iff {α : Type} (m : List (String × α)) (k : String) :
    dget? m k = none ↔ k ∉ dkeys m := by
  rw [← dget?_isSome_iff]
  cases dget? m k <;> simp

theorem mem_of_dget?_eq_some {α : Type} {m : List (String × α)} {k : String} {v : α}
    (h : dget? m k = some v) : (k, v) ∈ m := by
  induction m with
  | nil => simp [dget?] at h
  | cons p rest ih =>
    obtain ⟨k₀, v₀⟩ := p
    by_cases hp : k₀ = k
    · simp only [dget?] at h
      rw [if_pos hp] at h
      injection h with h
      subst hp h
      exact List.mem_cons_self _ _
    · simp only [dget?] at h
      rw [if_neg hp] at h
      exact List.mem_cons_of_mem _ (ih h)

theorem value_eq_of_nodup_mem {α : Type} {m : List (String × α)} {k : String} {a b : α}
    (hn : (dkeys m).Nodup) (ha : (k, a) ∈ m) (hb : (k, b) ∈ m) : a = b := by
  induction m with
  | nil => simp at ha
  | cons p rest ih =>
    obtain ⟨k₀, v₀⟩ := p
    simp only [dkeys, List.map_cons, List.nodup_cons] at hn
    rcases List.mem_cons.mp ha with ha' | ha' <;> rcases List.mem_cons.mp hb with hb' | hb'
    · rw [Prod.mk.injEq] at ha' hb'
      rw [ha'.2, hb'.2]
    · exfalso
      apply hn.1
      rw [Prod.mk.injEq] at ha'
      rw [← ha'.1]
      exact List.mem_map_of_mem Prod.fst hb'
    · exfalso
      apply hn.1
      rw [Prod.mk.injEq] at hb'
      rw [← hb'.1]
      exact List.mem_map_of_mem Prod.fst ha'
    · exact ih hn.2 ha' hb'

theorem dget?_eq_some_of_mem {α : Type} {m : List (String × α)} {k : String} {v : α}
    (hn : (dkeys m).Nodup) (h : (k, v) ∈ m) : dget? m k = some v := by
  have hs : (dget? m k).isSome := by
    rw [dget?_isSome_iff]
    exact List.mem_map_of_mem Prod.fst h
  rcases Option.isSome_iff_exists.mp hs with ⟨v', hv'⟩
  have hmem := mem_of_dget?_eq_some hv'
  rw [hv', value_eq_of_nodup_mem hn hmem h]

theorem mem_dset {α : Type} {m : List (String × α)} {k : String} {v : α} {p : String × α}
    (h : p ∈ dset m k v) : p ∈ m ∨ p = (k, v) := by
  induction m with
  | nil =>
    simp [dset] at h
    right
    exact h
  | cons q rest ih =>
    by_cases hq : q.1 = k
    · simp only [dset] at h
      rw [if_pos hq] at h
      rcases List.mem_cons.mp h with h | h
      · right; exact h
      · left; exact List.mem_cons_of_mem _ h
    · simp only [dset] at h
      rw [if_neg hq] at h
      rcases List.mem_cons.mp h with h | h
      · left; rw [h]; exact List.mem_cons_self _ _
      · rcases ih h with h' | h'
        · left; exact List.mem_cons_of_mem _ h'
        · right; exact h'

theorem dget?_eq_of_perm {α : Type} {m m' : List (String × α)}
    (hp : m.Perm m') (hn : (dkeys m).Nodup) (k : String) :
    dget? m k = dget? m' k := by
  have hn' : (dkeys m').Nodup := (hp.map Prod.fst).nodup_iff.mp hn
  cases hm : dget? m k with
  | none =>
    rw [dget?_eq_none_iff] at hm
    rw [Eq.comm, dget?_eq_none_iff]
    exact fun hk => hm ((hp.map Prod.fst).mem_iff.mpr hk)
  | some v =>
    have hmem := mem_of_dget?_eq_some hm
    exact (dget?_eq_some_of_mem hn' (hp.mem_iff.mp hmem)).symm

/-- Stable insertion (earlier elements come first among equal keys) used to
model descending sorting by a key. -/
def insertDescBy {α β : Type} [LinearOrder β] (f : α → β) (x : α) : List α → List α
  | [] => [x]
  | y :: ys => if f y ≤ f x then x :: y :: ys else y :: insertDescBy f x ys

/-- Stable descending-by-key sort, modelling `sorted(xs, key = f, reverse = True)`;
`heapq.nlargest(n, xs, key = f)` is documented as this followed by `[:n]`. -/
def sortDescBy {α β : Type} [LinearOrder β] (f : α → β) : List α → List α
  | [] => []
  | x :: xs => insertDescBy f x (sortDescBy f xs)

theorem perm_insertDescBy {α β : Type} [LinearOrder β] (f : α → β) (x : α) (l : List α) :
    (insertDescBy f x l).Perm (x :: l) := by
  induction l with
  | nil => simp [insertDescBy]
  | cons y ys ih =>
    by_cases h : f y ≤ f x
    · simp [insertDescBy, h]
    · simp only [insertDescBy, if_neg h]
      exact (ih.cons y).trans (List.Perm.swap x y ys)

theorem perm_sortDescBy {α β : Type} [LinearOrder β] (f : α → β) (l : List α) :
    (sortDescBy f l).Perm l := by
  induction l with
  | nil => simp [sortDescBy]
  | cons x xs ih =>
    exact (perm_insertDescBy f x (sortDescBy f xs)).trans (ih.cons x)

theorem pairwise_insertDescBy {α β : Type} [LinearOrder β] (f : α → β) (x : α) (l : List α)
    (h : l.Pairwise (fun a b => f b ≤ f a)) :
    (insertDescBy f x l).Pairwise (fun a b => f b ≤ f a) := by
  induction l with
  | nil => simp [insertDescBy]
  | cons y ys ih =>
    rcases List.pairwise_cons.mp h with ⟨hy, hys⟩
    by_cases hle : f y ≤ f x
    · simp only [insertDescBy, if_pos hle]
      refine List.pairwise_cons.mpr ⟨?_, h⟩
      intro b hb
      rcases List.mem_cons.mp hb with hb | hb
      · rw [hb]; exact hle
      · exact le_trans (hy b hb) hle
    · simp only [insertDescBy, if_neg hle]
      refine List.pairwise_cons.mpr ⟨?_, ih hys⟩
      intro b hb
      have hb' := (perm_insertDescBy f x ys).mem_iff.mp hb
      rcases List.mem_cons.mp hb' with hb' | hb'
      · rw [hb']; exact le_of_lt (lt_of_not_le hle)
      · exact hy b hb'

theorem pairwise_sortDescBy {α β : Type} [LinearOrder β] (f : α → β) (l : List α) :
    (sortDescBy f l).Pairwise (fun a b => f b ≤ f a) := by
  induction l with
  | nil => simp [sortDescBy]
  | cons x xs ih => exact pairwise_insertDescBy f x (sortDescBy f xs) ih

abbrev PostingMap := List (String × ℕ)

abbrev InvIndex := List (String × (ℕ × PostingMap))

/-- Per-document metadata, modelling the `doc_info[doc_id] = [doc_name, 0, 0]`
list of `construct_index.py` (name, content normalization factor, title
normalization factor: indices 0, 1, 2 of the Python list). -/
structure DocInfo where
  name : String
  norm : ℝ
  titleNorm : ℝ

abbrev DocInfoMap := List (String × DocInfo)

/-- Model of `helper_module.createChampionList`: `heapq.nlargest(max_docs,
posting_list.items(), key = itemgetter(1))` — i.e. the sorted-descending
prefix of length `max_docs` — re-inserted pair by pair into a fresh dict.
Tie order among equal frequencies is the stable-sort order; no verified
property depends on it. -/
def createChampionList (posting_list : PostingMap) (max_docs : ℕ) : PostingMap :=
  let sorted_tup := (sortDescBy (fun p => p.2) posting_list).take max_docs
  sorted_tup.foldl (fun champion_list p => dset champion_list p.1 p.2) []

/-- Model of the selection step of `helper_module.printTopKScores`:
`heapq.nlargest(K, scores, key = scores.get)` — the K keys of the score dict
with the largest values, in descending value order (printing is out of scope;
`scores.get` on a key of `scores` is its value, modelled with default 0). -/
noncomputable def topKDocs (scores : List (String × ℝ)) (K : ℕ) : List String :=
  (sortDescBy (fun docId => dgetD scores docId 0) (dkeys scores)).take K

/-- Model of `construct_index.addTitleToIndex` at the token level: the words
are the result of `processWords(title)` (tokenization itself is outside the
embedding). -/
def addTitleToIndex (title_words : List String) : PostingMap :=
  title_words.foldl
    (fun temp_index word =>
      if word ≠ "" then dset temp_index word (dgetD temp_index word 0 + 1) else temp_index)
    []

/-- Model of `construct_index.addDocToIndex` at the token level: the words are
the concatenation of `processWords(line)` over the lines of the text. -/
def addDocToIndex (words : List String) : PostingMap :=
  words.foldl
    (fun temp_index word =>
      if word ≠ "" then dset temp_index word (dgetD temp_index word 0 + 1) else temp_index)
    []

/-- One iteration of the loop in `construct_index.mergeDocToIndex` updating
`main_index`: `main_index[word] = main_index.get(word, [0, {}])`;
`main_index[word][0] += 1`; `main_index[word][1][doc_id] = tf`. -/
def mergeStep (doc_id : String) (main_index : InvIndex) (wt : String × ℕ) : InvIndex :=
  let entry := dgetD main_index wt.1 (0, [])
  dset main_index wt.1 (entry.1 + 1, dset entry.2 doc_id wt.2)

/-- One iteration of the same loop together with the accumulation
`doc_norm_factor += (1 + math.log(tf, 10)) ** 2`. -/
noncomputable def mergePairStep (doc_id : String) (st : InvIndex × ℝ) (wt : String × ℕ) :
    InvIndex × ℝ :=
  (mergeStep doc_id st.1 wt, st.2 + (1 + Real.logb 10 (wt.2 : ℝ)) ^ 2)

/-- Model of `construct_index.mergeDocToIndex`: merges a document's temporary
term-frequency map into the inverted index and stores the document's
normalization factor `doc_norm_factor ** 0.5` into `doc_info[doc_id][1]`
(content) or `doc_info[doc_id][2]` (title, when `isTitle`). In the source
`doc_info[doc_id]` is always present when this runs (`KeyError` otherwise);
the lookup here uses an empty default. -/
noncomputable def mergeDocToIndex (main_index : InvIndex) (doc_info : DocInfoMap)
    (doc_id : String) (temp_index : PostingMap) (isTitle : Bool) :
    InvIndex × DocInfoMap :=
  let res := temp_index.foldl (mergePairStep doc_id) (main_index, 0)
  let info := dgetD doc_info doc_id (DocInfo.mk "" 0 0)
  let info' := if isTitle then DocInfo.mk info.name info.norm (Real.sqrt res.2)
    else DocInfo.mk info.name (Real.sqrt res.2) info.titleNorm
  (res.1, dset doc_info doc_id info')

/-- Corpus document as handed to the core by the HTML-parsing collaborator:
`doc["id"]`, `doc["title"]`, and the token streams of `doc.get_text()` and of
the title. -/
structure CorpusDoc where
  id : String
  title : String
  contentWords : List String
  titleWords : List String

/-- Champion-list trimming loop at the end of
`construct_index.createIndexFromCorpus` (zoned mode): `inverted_index[word][1]
= createChampionList(inverted_index[word][1], max_docs = 100)` for every word;
the stored document frequency `inverted_index[word][0]` is not touched. -/
def trimIndexChampions (index : InvIndex) (max_docs : ℕ) : InvIndex :=
  index.map (fun e => (e.1, ((e.2).1, createChampionList (e.2).2 max_docs)))

/-- Per-document body of the corpus loop in `createIndexFromCorpus`:
`doc_info[doc_id] = [doc_name, 0, 0]`, merge into the content index, and in
zoned mode merge of the title into the title index. -/
noncomputable def processDoc (is_zoned : Bool) (st : InvIndex × InvIndex × DocInfoMap)
    (doc : CorpusDoc) : InvIndex × InvIndex × DocInfoMap :=
  let doc_info := dset st.2.2 doc.id (DocInfo.mk doc.title 0 0)
  let merged := mergeDocToIndex st.1 doc_info doc.id (addDocToIndex doc.contentWords) false
  if is_zoned then
    let mergedTitle :=
      mergeDocToIndex st.2.1 merged.2 doc.id (addTitleToIndex doc.titleWords) true
    (merged.1, mergedTitle.1, mergedTitle.2)
  else
    (merged.1, st.2.1, merged.2)

/-- Model of `construct_index.createIndexFromCorpus`: fold `processDoc` over
the corpus, then in zoned mode replace every content posting list by its
champion list capped at 100 documents. -/
noncomputable def createIndexFromCorpus (corpus : List CorpusDoc) (is_zoned : Bool) :
    InvIndex × InvIndex × DocInfoMap :=
  let st := corpus.foldl (processDoc is_zoned) ([], [], [])
  if is_zoned then (trimIndexChampions st.1 100, st.2.1, st.2.2) else st

/-- Embedding-similarity oracle, modelling `kv_model.most_similar(term, topn =
n)`: `some` ranked `(word, similarity)` pairs, or `none` when the lookup
raises (unknown term, swallowed by `except: pass`). -/
abbrev KVModel := String → ℕ → Option (List (String × ℝ))

abbrev QueryVec := List (String × ℝ)

/-- Model of `test_queries.expandQuery`. The Python function mutates the
`query_vec` dict it was given IN PLACE, iterating over the copy `temp_vec`,
and returns that same object; this definition computes the final state of
that object, which is therefore both the return value and the post-call
state of the caller's vector. The `index` argument is unused, as in the
source. -/
noncomputable def expandQuery (query_vec : QueryVec) (kv_model : KVModel)
    (index : InvIndex) (max_exp_no : ℕ) : QueryVec :=
  let temp_vec := query_vec
  let expanded := temp_vec.foldl
    (fun qv tv =>
      match kv_model tv.1 max_exp_no with
      | some top_nearest =>
        top_nearest.foldl (fun qv nw => dset qv nw.1 (dgetD qv nw.1 0 + nw.2 * tv.2)) qv
      | none => qv)
    query_vec
  expanded.map (fun p => (p.1, if p.2 < 0 then 0 else p.2))

/-- Model of `test_queries.constructQueryVector`. -/
noncomputable def constructQueryVector (query : List String) : QueryVec :=
  query.foldl (fun query_vec term => dset query_vec term (dgetD query_vec term 0 + 1)) []

/-- Model of `test_queries.computeQueryWordScore`: the tf-idf weight of a
query term; `tf` is the weight taken from the query vector and is the value
passed to `math.log(tf, 10)`. In the source `index[term]` is only evaluated
for terms present in the index; the lookup here uses a default. -/
noncomputable def computeQueryWordScore (term : String) (tf : ℝ) (index : InvIndex)
    (corpus_size : ℕ) : ℝ :=
  let df := (dgetD index term (0, [])).1
  let idf := Real.logb 10 ((corpus_size : ℝ) / (df : ℝ))
  (1 + Real.logb 10 tf) * idf

/-- Model of `test_queries.computeDocWordScore`: adds `qscore * norm_tf` to
the running score of every document in the term's posting list, dividing by
the stored content (or title) normalization factor. -/
noncomputable def computeDocWordScore (scores : List (String × ℝ)) (term : String)
    (qscore : ℝ) (index : InvIndex) (doc_info : DocInfoMap) (isTitle : Bool) :
    List (String × ℝ) :=
  let doc_list := (dgetD index term (0, [])).2
  doc_list.foldl
    (fun scores dv =>
      let tf := 1 + Real.logb 10 ((dv.2 : ℕ) : ℝ)
      let info := dgetD doc_info dv.1 (DocInfo.mk "" 0 0)
      let norm_tf := if isTitle then tf / info.titleNorm else tf / info.norm
      dset scores dv.1 (dgetD scores dv.1 0 + qscore * norm_tf))
    scores

/-- One iteration of the query-term loop of `test_queries.evaluateDocScores`
over the state (scores, accumulated query norm): `if word not in index:
qscore = 0 else: qscore = computeQueryWordScore(...); computeDocWordScore(...)`
followed by `query_norm += qscore ** 2`. -/
noncomputable def evalStep (index : InvIndex) (doc_info : DocInfoMap) (corpus_size : ℕ)
    (isTitle : Bool) (st : List (String × ℝ) × ℝ) (wp : String × ℝ) :
    List (String × ℝ) × ℝ :=
  if (dget? index wp.1).isSome then
    let qscore := computeQueryWordScore wp.1 wp.2 index corpus_size
    (computeDocWordScore st.1 wp.1 qscore index doc_info isTitle, st.2 + qscore ^ 2)
  else
    (st.1, st.2 + (0 : ℝ) ^ 2)

/-- Model of `test_queries.evaluateDocScores`: optional expansion, index
elimination over the query terms, accumulation of the query normalization
factor, and final cosine normalization when the query norm is positive. -/
noncomputable def evaluateDocScores (query_vec : QueryVec) (kv_model : KVModel)
    (index : InvIndex) (doc_info : DocInfoMap) (corpus_size : ℕ) (isTitle : Bool)
    (expand_query : Bool) : List (String × ℝ) :=
  let query_vec := if expand_query then expandQuery query_vec kv_model index 7 else query_vec
  let st := query_vec.foldl (evalStep index doc_info corpus_size isTitle) ([], 0)
  let query_norm := Real.sqrt st.2
  if 0 < query_norm then st.1.map (fun p => (p.1, p.2 / query_norm)) else st.1

/-- Model of `test_queries.mergeScores`: dict comprehension over
`set(doc_scores) | set(title_scores)`, modelled by one enumeration of the
union (Python set iteration order is unspecified; no verified property
depends on it). -/
noncomputable def mergeScores (doc_scores title_scores : List (String × ℝ))
    (title_weight : ℝ) : List (String × ℝ) :=
  let keyUnion := dkeys doc_scores ++
    (dkeys title_scores).filter (fun k => decide (k ∉ dkeys doc_scores))
  keyUnion.map (fun k =>
    (k, dgetD doc_scores k 0 * (1 - title_weight) + dgetD title_scores k 0 * title_weight))

/-- The values passed as `tf` to `math.log(tf, 10)` in `computeQueryWordScore`
over one run of `evaluateDocScores`: for each entry of the (post-expansion)
query vector whose term is present in the index, the weight taken from the
query vector (`test_queries.py` lines 142-146 calling line 87). -/
def queryLogTfArgs (query_vec : QueryVec) (index : InvIndex) : List ℝ :=
  (query_vec.filter (fun p => (dget? index p.1).isSome)).map (fun p => p.2)

theorem dget?_trimIndexChampions (index : InvIndex) (max_docs : ℕ) (w : String) :
    dget? (trimIndexChampions index max_docs) w =
      (dget? index w).map (fun e => (e.1, createChampionList e.2 max_docs)) := by
  induction index with
  | nil => simp [trimIndexChampions, dget?]
  | cons e rest ih =>
    by_cases h : e.1 = w
    · simp [trimIndexChampions, dget?, h]
    · simp only [trimIndexChampions, List.map_cons, dget?] at ih ⊢
      rw [if_neg h, if_neg h]
      exact ih

/-- Claim C10: champion-list trimming in zoned mode replaces only the postings
mapping of each term with its champion list; the stored document frequency
`index[word][0]` is unchanged, so `computeQueryWordScore`, which reads only
the document frequency, computes the same idf and weight on the trimmed index
as on the full index. -/
theorem trimChampions_preserves_df_and_qscore (index : InvIndex) (max_docs : ℕ)
    (term : String) (tf : ℝ) (corpus_size : ℕ) :
    (dget? (trimIndexChampions index max_docs) term =
      (dget? index term).map (fun e => (e.1, createChampionList e.2 max_docs))) ∧
    ((dget? (trimIndexChampions index max_docs) term).map Prod.fst =
      (dget? index term).map Prod.fst) ∧
    computeQueryWordScore term tf (trimIndexChampions index max_docs) corpus_size =
      computeQueryWordScore term tf index corpus_size := by
  refine ⟨dget?_trimIndexChampions index max_docs term, ?_, ?_⟩
  · rw [dget?_trimIndexChampions index max_docs term]
    cases dget? index term <;> simp
  · unfold computeQueryWordScore
    rw [dgetD, dgetD, dget?_trimIndexChampions index max_docs term]
    cases dget? index term <;> simp

theorem dget?_map_keys {α : Type} (l : List String) (f : String → α) (k : String) :
    dget? (l.map (fun k' => (k', f k'))) k = if k ∈ l then some (f k) else none := by
  induction l with
  | nil => simp [dget?]
  | cons a l ih =>
    by_cases h : a = k
    · subst h
      simp [dget?]
    · simp only [List.map_cons, dget?]
      rw [if_neg h]
      rw [ih]
      by_cases hk : k ∈ l
      · rw [if_pos hk, if_pos (List.mem_cons_of_mem a hk)]
      · rw [if_neg hk, if_neg (by simp [Ne.symm h, hk])]

theorem mem_keyUnion_iff (doc_scores title_scores : List (String × ℝ)) (k : String) :
    k ∈ dkeys doc_scores ++
        (dkeys title_scores).filter (fun k' => decide (k' ∉ dkeys doc_scores)) ↔
      k ∈ dkeys doc_scores ∨ k ∈ dkeys title_scores := by
  rw [List.mem_append, List.mem_filter]
  simp only [decide_eq_true_eq]
  constructor
  · rintro (h | ⟨h, _⟩)
    · exact Or.inl h
    · exact Or.inr h
  · rintro (h | h)
    · exact Or.inl h
    · by_cases hd : k ∈ dkeys doc_scores
      · exact Or.inl hd
      · exact Or.inr ⟨h, hd⟩

/-- Claim C7: `mergeScores` is defined over the union of the two key sets and
maps each document to `content * (1 - title_weight) + title * title_weight`,
an absent entry contributing 0; on doc scores `{A: 0.8}`, title scores
`{A: 0.2, B: 0.5}` and title weight 0.1 it yields `{A: 0.74, B: 0.05}`. -/
theorem mergeScores_spec (doc_scores title_scores : List (String × ℝ))
    (title_weight : ℝ) (k : String) :
    (k ∈ dkeys (mergeScores doc_scores title_scores title_weight) ↔
      k ∈ dkeys doc_scores ∨ k ∈ dkeys title_scores) ∧
    (dget? (mergeScores doc_scores title_scores title_weight) k =
      if k ∈ dkeys doc_scores ∨ k ∈ dkeys title_scores then
        some (dgetD doc_scores k 0 * (1 - title_weight) +
          dgetD title_scores k 0 * title_weight)
      else none) ∧
    dget? (mergeScores [("A", 0.8)] [("A", 0.2), ("B", 0.5)] 0.1) "A" = some 0.74 ∧
    dget? (mergeScores [("A", 0.8)] [("A", 0.2), ("B", 0.5)] 0.1) "B" = some 0.05 := by
  refine ⟨?_, ?_, ?_, ?_⟩
  · unfold mergeScores
    simp only [dkeys, List.map_map]
    rw [show ((fun p : String × ℝ => p.1) ∘ fun k' =>
      (k', dgetD doc_scores k' 0 * (1 - title_weight) +
        dgetD title_scores k' 0 * title_weight)) = id from rfl]
    rw [List.map_id]
    exact mem_keyUnion_iff doc_scores title_scores k
  · unfold mergeScores
    rw [dget?_map_keys]
    rw [if_congr (mem_keyUnion_iff doc_scores title_scores k) rfl rfl]
  · have hAB : ("A" : String) ≠ "B" := by decide
    unfold mergeScores
    rw [dget?_map_keys]
    norm_num [dkeys, dgetD, dget?, hAB, hAB.symm]
  · have hAB : ("A" : String) ≠ "B" := by decide
    unfold mergeScores
    rw [dget?_map_keys]
    norm_num [dkeys, dgetD, dget?, hAB, hAB.symm]

theorem dset_append_of_not_mem {α : Type} (m : List (String × α)) (k : String) (v : α)
    (h : k ∉ dkeys m) : dset m k v = m ++ [(k, v)] := by
  induction m with
  | nil => simp [dset]
  | cons p rest ih =>
    have hp : p.1 ≠ k := by
      intro hh
      exact h (by simp [dkeys, hh])
    have h' : k ∉ dkeys rest := by
      intro hh
      apply h
      simp [dkeys] at hh ⊢
      right
      exact hh
    simp only [dset, if_neg hp, List.cons_append]
    rw [ih h']

theorem foldl_dset_eq_append {α : Type} (l : List (String × α)) (m : List (String × α))
    (hn : (dkeys l).Nodup) (hfresh : ∀ k ∈ dkeys l, k ∉ dkeys m) :
    l.foldl (fun acc p => dset acc p.1 p.2) m = m ++ l := by
  induction l generalizing m with
  | nil => simp
  | cons p l ih =>
    have hn1 : p.1 ∉ dkeys l := by
      simp only [dkeys, List.map_cons, List.nodup_cons] at hn
      exact hn.1
    have hn2 : (dkeys l).Nodup := by
      simp only [dkeys, List.map_cons, List.nodup_cons] at hn
      exact hn.2
    have hp : p.1 ∉ dkeys m := hfresh p.1 (by simp [dkeys])
    have hstep : dset m p.1 p.2 = m ++ [(p.1, p.2)] := dset_append_of_not_mem m p.1 p.2 hp
    have hfresh' : ∀ k ∈ dkeys l, k ∉ dkeys (m ++ [(p.1, p.2)]) := by
      intro k hk hmem
      have hsplit : k ∈ dkeys m ∨ k = p.1 := by
        simp only [dkeys, List.map_append, List.mem_append, List.map_cons, List.map_nil,
          List.mem_singleton] at hmem
        exact hmem
      rcases hsplit with hm | hp1
      · exact hfresh k (by simp only [dkeys, List.map_cons, List.mem_cons]; exact Or.inr hk) hm
      · exact hn1 (hp1 ▸ hk)
    simp only [List.foldl_cons]
    rw [hstep, ih (m ++ [(p.1, p.2)]) hn2 hfresh']
    simp

theorem mem_foldl_dset {α : Type} (l : List (String × α)) (m : List (String × α))
    (p : String × α) (h : p ∈ l.foldl (fun acc q => dset acc q.1 q.2) m) :
    p ∈ m ∨ p ∈ l := by
  induction l generalizing m with
  | nil => exact Or.inl h
  | cons q l ih =>
    simp only [List.foldl_cons] at h
    rcases ih (dset m q.1 q.2) h with h' | h'
    · rcases mem_dset h' with h'' | h''
      · exact Or.inl h''
      · right
        rw [h'']
        exact List.mem_cons_self _ _
    · exact Or.inr (List.mem_cons_of_mem _ h')

theorem sorted_take_maximal {α β : Type} [LinearOrder β] (f : α → β) (l : List α) (n : ℕ)
    (x : α) (hx : x ∈ (sortDescBy f l).take n) (y : α) (hy : y ∈ sortDescBy f l)
    (hyn : y ∉ (sortDescBy f l).take n) : f y ≤ f x := by
  have hs := pairwise_sortDescBy f l
  rw [← List.take_append_drop n (sortDescBy f l)] at hs
  have hmem : y ∈ (sortDescBy f l).take n ∨ y ∈ (sortDescBy f l).drop n := by
    rw [← List.mem_append, List.take_append_drop]
    exact hy
  rcases hmem with h | h
  · exact absurd h hyn
  · exact (List.pairwise_append.mp hs).2.2 x hx y h

theorem createChampionList_eq_sorted_take (posting_list : PostingMap) (max_docs : ℕ)
    (hn : (dkeys posting_list).Nodup) :
    createChampionList posting_list max_docs =
      (sortDescBy (fun p => p.2) posting_list).take max_docs := by
  have hperm : ((sortDescBy (fun p : String × ℕ => p.2) posting_list).map Prod.fst).Perm
      (posting_list.map Prod.fst) :=
    (perm_sortDescBy (fun p : String × ℕ => p.2) posting_list).map Prod.fst
  have hns : (dkeys (sortDescBy (fun p : String × ℕ => p.2) posting_list)).Nodup :=
    hperm.nodup_iff.mpr hn
  have hnt : (dkeys ((sortDescBy (fun p : String × ℕ => p.2) posting_list).take max_docs)).Nodup := by
    apply hns.sublist
    exact (List.take_sublist max_docs _).map Prod.fst
  unfold createChampionList
  rw [foldl_dset_eq_append _ [] hnt (by simp [dkeys])]
  simp

/-- Claim C3: `createChampionList` returns at most `max_docs` entries, a
subset of the input posting list with frequencies unchanged, every kept
document's frequency is at least every dropped document's frequency, and an
input with at most `max_docs` entries is returned unchanged as a mapping. -/
theorem createChampionList_spec (posting_list : PostingMap) (max_docs : ℕ)
    (hn : (dkeys posting_list).Nodup) :
    (createChampionList posting_list max_docs).length ≤ max_docs ∧
    (∀ p ∈ createChampionList posting_list max_docs, p ∈ posting_list) ∧
    (∀ p ∈ createChampionList posting_list max_docs, ∀ q ∈ posting_list,
      q.1 ∉ dkeys (createChampionList posting_list max_docs) → q.2 ≤ p.2) ∧
    (posting_list.length ≤ max_docs →
      ∀ k, dget? (createChampionList posting_list max_docs) k = dget? posting_list k) := by
  have hcl := createChampionList_eq_sorted_take posting_list max_docs hn
  have hperm := perm_sortDescBy (fun p : String × ℕ => p.2) posting_list
  refine ⟨?_, ?_, ?_, ?_⟩
  · rw [hcl, List.length_take]
    exact min_le_left _ _
  · intro p hp
    rw [hcl] at hp
    exact hperm.mem_iff.mp ((List.take_sublist max_docs _).mem hp)
  · intro p hp q hq hqn
    rw [hcl] at hp hqn
    have hq' : q ∈ sortDescBy (fun p : String × ℕ => p.2) posting_list :=
      hperm.mem_iff.mpr hq
    apply sorted_take_maximal (fun p : String × ℕ => p.2) posting_list max_docs p hp q hq'
    intro hmem
    exact hqn (List.mem_map_of_mem Prod.fst hmem)
  · intro hlen k
    have hslen : (sortDescBy (fun p : String × ℕ => p.2) posting_list).length ≤ max_docs := by
      rw [hperm.length_eq]
      exact hlen
    rw [hcl, List.take_of_length_le hslen]
    exact dget?_eq_of_perm hperm (((perm_sortDescBy _ _).map Prod.fst).nodup_iff.mpr hn) k

theorem createChampionList_spec_witness :
    (dkeys [("A", 5), ("B", 2), ("C", 7)]).Nodup ∧
    ((createChampionList [("A", 5), ("B", 2), ("C", 7)] 2).length ≤ 2 ∧
    (∀ p ∈ createChampionList [("A", 5), ("B", 2), ("C", 7)] 2,
      p ∈ [("A", 5), ("B", 2), ("C", 7)]) ∧
    (∀ p ∈ createChampionList [("A", 5), ("B", 2), ("C", 7)] 2,
      ∀ q ∈ [("A", 5), ("B", 2), ("C", 7)],
      q.1 ∉ dkeys (createChampionList [("A", 5), ("B", 2), ("C", 7)] 2) → q.2 ≤ p.2) ∧
    (([("A", 5), ("B", 2), ("C", 7)] : PostingMap).length ≤ 2 →
      ∀ k, dget? (createChampionList [("A", 5), ("B", 2), ("C", 7)] 2) k =
        dget? [("A", 5), ("B", 2), ("C", 7)] k)) :=
  ⟨by decide, createChampionList_spec [("A", 5), ("B", 2), ("C", 7)] 2 (by decide)⟩

/-- Claim C8: the top-K selection of `printTopKScores` returns the K document
IDs with the highest scores (a maximal subset under ties) in descending score
order; with fewer than K entries it returns all available documents in
descending order, and an empty score map yields no results; on `{A: 0.9,
B: 0.5, C: 0.8, D: 0.1}` with K = 2 it returns A and C. -/
theorem topKDocs_spec (scores : List (String × ℝ)) (K : ℕ) :
    (topKDocs scores K).length = min K scores.length ∧
    (∀ d ∈ topKDocs scores K, d ∈ dkeys scores) ∧
    (∀ d ∈ topKDocs scores K, ∀ d' ∈ dkeys scores, d' ∉ topKDocs scores K →
      dgetD scores d' 0 ≤ dgetD scores d 0) ∧
    (topKDocs scores K).Pairwise (fun a b => dgetD scores b 0 ≤ dgetD scores a 0) ∧
    (scores.length ≤ K → (topKDocs scores K).Perm (dkeys scores)) ∧
    topKDocs [] K = [] ∧
    topKDocs [("A", 0.9), ("B", 0.5), ("C", 0.8), ("D", 0.1)] 2 = ["A", "C"] := by
  have hperm := perm_sortDescBy (fun d => dgetD scores d 0) (dkeys scores)
  refine ⟨?_, ?_, ?_, ?_, ?_, ?_, ?_⟩
  · unfold topKDocs
    rw [List.length_take, hperm.length_eq]
    simp [dkeys]
  · intro d hd
    exact hperm.mem_iff.mp ((List.take_sublist K _).mem hd)
  · intro d hd d' hd' hdn
    exact sorted_take_maximal (fun d => dgetD scores d 0) (dkeys scores) K d hd d'
      (hperm.mem_iff.mpr hd') hdn
  · exact (pairwise_sortDescBy (fun d => dgetD scores d 0) (dkeys scores)).sublist
      (List.take_sublist K _)
  · intro hK
    unfold topKDocs
    rw [List.take_of_length_le (by rw [hperm.length_eq]; simpa [dkeys] using hK)]
    exact hperm
  · simp [topKDocs, dkeys, sortDescBy]
  · have hAB : ("A" : String) ≠ "B" := by decide
    have hAC : ("A" : String) ≠ "C" := by decide
    have hAD : ("A" : String) ≠ "D" := by decide
    have hBC : ("B" : String) ≠ "C" := by decide
    have hBD : ("B" : String) ≠ "D" := by decide
    have hCD : ("C" : String) ≠ "D" := by decide
    norm_num [topKDocs, sortDescBy, insertDescBy, dkeys, dgetD, dget?, hAB, hAC, hAD,
      hBC, hBD, hCD, hAB.symm, hAC.symm, hAD.symm, hBC.symm, hBD.symm, hCD.symm]

theorem dgetD_dset_self {α : Type} (m : List (String × α)) (k : String) (v d : α) :
    dgetD (dset m k v) k d = v := by
  rw [dgetD, dget?_dset_self]
  rfl

theorem dgetD_dset_ne {α : Type} (m : List (String × α)) {k k' : String} (v d : α)
    (h : k' ≠ k) : dgetD (dset m k v) k' d = dgetD m k' d := by
  rw [dgetD, dget?_dset_ne m v h]
  rfl

/-- Total contribution of one snapshot entry `(s, val)` of the pre-expansion
query vector to the final weight of a term `t`: the sum of `similarity * val`
over those synonyms of `s` that equal `t` (0 when the embedding lookup
fails). This is the spec-side description of one expansion step. -/
noncomputable def synContrib (kv_model : KVModel) (max_exp_no : ℕ) (s : String) (val : ℝ)
    (t : String) : ℝ :=
  match kv_model s max_exp_no with
  | none => 0
  | some top_nearest =>
    (top_nearest.map (fun nw => if nw.1 = t then nw.2 * val else 0)).sum

/-- Sum of the expansion contributions to term `t` over all pre-expansion
entries of the query vector. -/
noncomputable def expContrib (kv_model : KVModel) (query_vec : QueryVec) (max_exp_no : ℕ)
    (t : String) : ℝ :=
  (query_vec.map (fun tv => synContrib kv_model max_exp_no tv.1 tv.2 t)).sum

theorem expand_inner_fold (ns : List (String × ℝ)) (m : QueryVec) (val : ℝ) (t : String) :
    dgetD (ns.foldl (fun qv nw => dset qv nw.1 (dgetD qv nw.1 0 + nw.2 * val)) m) t 0 =
      dgetD m t 0 + (ns.map (fun nw => if nw.1 = t then nw.2 * val else 0)).sum := by
  induction ns generalizing m with
  | nil => simp
  | cons nw ns ih =>
    simp only [List.foldl_cons, List.map_cons, List.sum_cons]
    rw [ih]
    by_cases h : nw.1 = t
    · subst h
      rw [dgetD_dset_self, if_pos rfl]
      ring
    · rw [dgetD_dset_ne _ _ _ (Ne.symm h), if_neg h]
      ring

theorem expand_outer_fold (kv_model : KVModel) (max_exp_no : ℕ) (l : List (String × ℝ))
    (m : QueryVec) (t : String) :
    dgetD (l.foldl (fun qv tv =>
      match kv_model tv.1 max_exp_no with
      | some top_nearest =>
        top_nearest.foldl (fun qv nw => dset qv nw.1 (dgetD qv nw.1 0 + nw.2 * tv.2)) qv
      | none => qv) m) t 0 =
      dgetD m t 0 + (l.map (fun tv => synContrib kv_model max_exp_no tv.1 tv.2 t)).sum := by
  induction l generalizing m with
  | nil => simp
  | cons tv l ih =>
    simp only [List.foldl_cons, List.map_cons, List.sum_cons]
    rw [ih]
    cases hkv : kv_model tv.1 max_exp_no with
    | none =>
      simp only [hkv, synContrib]
      ring
    | some ns =>
      simp only [hkv, synContrib]
      rw [expand_inner_fold]
      ring

theorem dgetD_clamp_map (m : QueryVec) (t : String) :
    dgetD (m.map (fun p => (p.1, if p.2 < 0 then 0 else p.2))) t 0 =
      max 0 (dgetD m t 0) := by
  induction m with
  | nil => simp [dgetD, dget?]
  | cons p m ih =>
    by_cases h : p.1 = t
    · simp only [List.map_cons, dgetD, dget?]
      rw [if_pos h, if_pos h]
      simp only [Option.getD_some]
      rcases le_or_lt 0 p.2 with h2 | h2
      · rw [if_neg (not_lt.mpr h2), max_eq_right h2]
      · rw [if_pos h2, max_eq_left (le_of_lt h2)]
    · simp only [List.map_cons, dgetD, dget?] at ih ⊢
      rw [if_neg h, if_neg h]
      exact ih

/-- Claim C4 (amended): `expandQuery` iterates over a snapshot (`temp_vec`) of
the pre-expansion entries, so the final weight of every term is the clamp to
0 of its pre-expansion weight plus contributions computed only from the
pre-expansion entries at their pre-expansion values — expansion-added terms
are never themselves expanded within the same call — but the function mutates
the original query vector in place rather than a copy (see
`expandQuery_mutates_original`). -/
theorem expandQuery_snapshot_semantics (query_vec : QueryVec) (kv_model : KVModel)
    (index : InvIndex) (max_exp_no : ℕ) (t : String) :
    dgetD (expandQuery query_vec kv_model index max_exp_no) t 0 =
      max 0 (dgetD query_vec t 0 + expContrib kv_model query_vec max_exp_no t) := by
  unfold expandQuery
  rw [dgetD_clamp_map, expand_outer_fold]
  rfl

/-- Similarity oracle for the `expandQuery` counterexample: the term "a" has
the single synonym ("b", 1); every other lookup fails. -/
def kvSampleSyn : KVModel := fun t _ => if t = "a" then some [("b", 1)] else none

/-- Claim C4 counterexample: `expandQuery` does not leave the original vector
object at its pre-call value — it mutates the caller's dict in place and
returns that same object. On the query vector {"a": 1}, after the call the
original object holds {"a": 1, "b": 1}, which differs from {"a": 1}. -/
theorem expandQuery_mutates_original :
    expandQuery [("a", 1)] kvSampleSyn [] 7 ≠ [("a", 1)] := by
  have hlen : (expandQuery [("a", 1)] kvSampleSyn [] 7).length = 2 := by
    have hab : ("a" : String) ≠ "b" := by decide
    norm_num [expandQuery, kvSampleSyn, dset, dgetD, dget?, hab, hab.symm]
  intro h
  rw [h] at hlen
  norm_num at hlen

/-- Similarity oracle for the C1 failing input: "a" has the single synonym
("b", -1) (a negative cosine similarity); every other lookup fails. -/
def kvNegSyn : KVModel := fun t _ => if t = "a" then some [("b", -1)] else none

/-- Inverted index for the C1 failing input: the expansion term "b" is an
indexed term (as every `kv_model` term is, after `trim_embeddings.py` trims
the embeddings to the corpus vocabulary). -/
def idxNegSyn : InvIndex := [("b", (1, [("D", 1)]))]

/-- Claim C1, failing part: with query vector {"a": 1} and a synonym
("b", -1) of "a", expansion gives "b" the weight -1, the clamp raises it to
exactly 0, and since "b" is in the index this 0 is the value passed as `tf`
to `math.log(tf, 10)` in `computeQueryWordScore` during `evaluateDocScores` —
`math.log(0, 10)` is a `ValueError` in Python, so a weight ≤ 0 does reach the
logarithm once query expansion has been applied. -/
theorem zero_tf_reaches_log :
    dget? (expandQuery [("a", 1)] kvNegSyn idxNegSyn 7) "b" = some 0 ∧
    (0 : ℝ) ∈ queryLogTfArgs (expandQuery [("a", 1)] kvNegSyn idxNegSyn 7) idxNegSyn := by
  have hab : ("a" : String) ≠ "b" := by decide
  constructor
  · norm_num [expandQuery, kvNegSyn, dset, dgetD, dget?, hab, hab.symm]
  · norm_num [expandQuery, queryLogTfArgs, idxNegSyn, kvNegSyn, dset, dgetD, dget?,
      List.mem_filter, hab, hab.symm]

theorem mergeFold_fst (doc_id : String) (temp_index : PostingMap) :
    ∀ (main_index : InvIndex) (c : ℝ),
      (temp_index.foldl (mergePairStep doc_id) (main_index, c)).1 =
        temp_index.foldl (mergeStep doc_id) main_index := by
  induction temp_index with
  | nil =>
    intro i c
    rfl
  | cons wt t ih =>
    intro i c
    simp only [List.foldl_cons]
    exact ih (mergeStep doc_id i wt) (c + (1 + Real.logb 10 (wt.2 : ℝ)) ^ 2)

theorem mergeFold_snd (doc_id : String) (temp_index : PostingMap) :
    ∀ (main_index : InvIndex) (c : ℝ),
      (temp_index.foldl (mergePairStep doc_id) (main_index, c)).2 =
        c + (temp_index.map (fun wt => (1 + Real.logb 10 (wt.2 : ℝ)) ^ 2)).sum := by
  induction temp_index with
  | nil =>
    intro i c
    simp
  | cons wt t ih =>
    intro i c
    simp only [List.foldl_cons, List.map_cons, List.sum_cons]
    show (List.foldl (mergePairStep doc_id)
      (mergeStep doc_id i wt, c + (1 + Real.logb 10 (wt.2 : ℝ)) ^ 2) t).2 = _
    rw [ih (mergeStep doc_id i wt) (c + (1 + Real.logb 10 (wt.2 : ℝ)) ^ 2)]
    ring

theorem countFold_values (ws : List String) :
    ∀ (m : PostingMap), (∀ p ∈ m, 1 ≤ p.2) →
      ∀ p ∈ ws.foldl (fun temp_index word =>
          if word ≠ "" then dset temp_index word (dgetD temp_index word 0 + 1)
          else temp_index) m, 1 ≤ p.2 := by
  induction ws with
  | nil =>
    intro m hm p hp
    exact hm p hp
  | cons w ws ih =>
    intro m hm p hp
    simp only [List.foldl_cons] at hp
    by_cases hw : w ≠ ""
    · rw [if_pos hw] at hp
      refine ih (dset m w (dgetD m w 0 + 1)) ?_ p hp
      intro q hq
      rcases mem_dset hq with h' | h'
      · exact hm q h'
      · rw [h']
        simp
    · rw [if_neg hw] at hp
      exact ih m hm p hp

theorem countFold_nodup (ws : List String) :
    ∀ (m : PostingMap), (dkeys m).Nodup →
      (dkeys (ws.foldl (fun temp_index word =>
          if word ≠ "" then dset temp_index word (dgetD temp_index word 0 + 1)
          else temp_index) m)).Nodup := by
  induction ws with
  | nil =>
    intro m hm
    exact hm
  | cons w ws ih =>
    intro m hm
    simp only [List.foldl_cons]
    by_cases hw : w ≠ ""
    · rw [if_pos hw]
      exact ih _ (nodup_dkeys_dset m w _ hm)
    · rw [if_neg hw]
      exact ih m hm

theorem addDocToIndex_values (ws : List String) : ∀ p ∈ addDocToIndex ws, 1 ≤ p.2 :=
  countFold_values ws [] (by simp)

theorem addDocToIndex_nodup (ws : List String) : (dkeys (addDocToIndex ws)).Nodup :=
  countFold_nodup ws [] (by simp [dkeys])

theorem addTitleToIndex_eq_addDocToIndex (ws : List String) :
    addTitleToIndex ws = addDocToIndex ws := rfl

theorem mergeDocToIndex_doc_info (main_index : InvIndex) (doc_info : DocInfoMap)
    (doc_id : String) (temp_index : PostingMap) (isTitle : Bool) :
    dget? (mergeDocToIndex main_index doc_info doc_id temp_index isTitle).2 doc_id =
      some (if isTitle then
        DocInfo.mk (dgetD doc_info doc_id (DocInfo.mk "" 0 0)).name
          (dgetD doc_info doc_id (DocInfo.mk "" 0 0)).norm
          (Real.sqrt ((temp_index.map (fun wt => (1 + Real.logb 10 (wt.2 : ℝ)) ^ 2)).sum))
      else
        DocInfo.mk (dgetD doc_info doc_id (DocInfo.mk "" 0 0)).name
          (Real.sqrt ((temp_index.map (fun wt => (1 + Real.logb 10 (wt.2 : ℝ)) ^ 2)).sum))
          (dgetD doc_info doc_id (DocInfo.mk "" 0 0)).titleNorm) := by
  cases isTitle <;>
    simp [mergeDocToIndex, dget?_dset_self, mergeFold_snd]

theorem logb_ten_two_lb : (3 : ℝ) / 10 < Real.logb 10 2 := by
  rw [Real.logb, lt_div_iff₀ (Real.log_pos (by norm_num))]
  have h1 : Real.log ((10 : ℝ) ^ (3 : ℕ)) < Real.log ((2 : ℝ) ^ (10 : ℕ)) := by
    apply Real.log_lt_log (by positivity)
    norm_num
  rw [Real.log_pow, Real.log_pow] at h1
  push_cast at h1
  linarith

theorem logb_ten_two_ub : Real.logb 10 2 < 151 / 500 := by
  rw [Real.logb, div_lt_iff₀ (Real.log_pos (by norm_num))]
  have h1 : Real.log ((2 : ℝ) ^ (500 : ℕ)) < Real.log ((10 : ℝ) ^ (151 : ℕ)) := by
    apply Real.log_lt_log (by positivity)
    norm_num
  rw [Real.log_pow, Real.log_pow] at h1
  push_cast at h1
  linarith

theorem logb_ten_three_lb : (2 : ℝ) / 5 < Real.logb 10 3 := by
  rw [Real.logb, lt_div_iff₀ (Real.log_pos (by norm_num))]
  have h1 : Real.log ((10 : ℝ) ^ (2 : ℕ)) < Real.log ((3 : ℝ) ^ (5 : ℕ)) := by
    apply Real.log_lt_log (by positivity)
    norm_num
  rw [Real.log_pow, Real.log_pow] at h1
  push_cast at h1
  linarith

theorem logb_ten_three_ub : Real.logb 10 3 < 12 / 25 := by
  rw [Real.logb, div_lt_iff₀ (Real.log_pos (by norm_num))]
  have h1 : Real.log ((3 : ℝ) ^ (25 : ℕ)) < Real.log ((10 : ℝ) ^ (12 : ℕ)) := by
    apply Real.log_lt_log (by positivity)
    norm_num
  rw [Real.log_pow, Real.log_pow] at h1
  push_cast at h1
  linarith

theorem norm23_bounds :
    1.9 < Real.sqrt ((1 + Real.logb 10 2) ^ 2 + ((1 + Real.logb 10 3) ^ 2 + 0)) ∧
    Real.sqrt ((1 + Real.logb 10 2) ^ 2 + ((1 + Real.logb 10 3) ^ 2 + 0)) < 2 := by
  have l2lb := logb_ten_two_lb
  have l2ub := logb_ten_two_ub
  have l3lb := logb_ten_three_lb
  have l3ub := logb_ten_three_ub
  have h2l : ((13 : ℝ) / 10) ^ 2 < (1 + Real.logb 10 2) ^ 2 :=
    pow_lt_pow_left₀ (by linarith) (by norm_num) (by norm_num)
  have h3l : ((7 : ℝ) / 5) ^ 2 < (1 + Real.logb 10 3) ^ 2 :=
    pow_lt_pow_left₀ (by linarith) (by norm_num) (by norm_num)
  have h2u : (1 + Real.logb 10 2) ^ 2 < ((651 : ℝ) / 500) ^ 2 :=
    pow_lt_pow_left₀ (by linarith) (by linarith) (by norm_num)
  have h3u : (1 + Real.logb 10 3) ^ 2 < ((37 : ℝ) / 25) ^ 2 :=
    pow_lt_pow_left₀ (by linarith) (by linarith) (by norm_num)
  have e1 : ((13 : ℝ) / 10) ^ 2 = 169 / 100 := by norm_num
  have e2 : ((7 : ℝ) / 5) ^ 2 = 49 / 25 := by norm_num
  have e3 : ((651 : ℝ) / 500) ^ 2 = 423801 / 250000 := by norm_num
  have e4 : ((37 : ℝ) / 25) ^ 2 = 1369 / 625 := by norm_num
  constructor
  · rw [Real.lt_sqrt (by norm_num)]
    rw [e1] at h2l
    rw [e2] at h3l
    nlinarith
  · rw [Real.sqrt_lt' (by norm_num)]
    rw [e3] at h2u
    rw [e4] at h3u
    nlinarith

theorem stored_norm23 :
    (dgetD (mergeDocToIndex [] [] "d" (addDocToIndex ["a", "a", "b", "b", "b"]) false).2
      "d" (DocInfo.mk "" 0 0)).norm =
      Real.sqrt ((1 + Real.logb 10 2) ^ 2 + ((1 + Real.logb 10 3) ^ 2 + 0)) := by
  have htemp : addDocToIndex ["a", "a", "b", "b", "b"] = [("a", 2), ("b", 3)] := by decide
  rw [htemp, dgetD, mergeDocToIndex_doc_info]
  norm_num

/-- Claim C2 (amended): for every merged document, the stored normalization
factor (content factor, or title factor when `isTitle` is set) equals the
square root of the sum over the document's term-frequency map (all observed
frequencies, which are ≥ 1) of (1 + log10(tf))², computed in a single pass
over the map; for frequencies {2, 3} the stored factor is
sqrt((1 + log10 2)² + (1 + log10 3)²), which lies strictly between 1.9 and 2
(≈ 1.968) — not approximately 1.623 as the spec's example states. -/
theorem mergeDocToIndex_norm_factor (main_index : InvIndex) (doc_info : DocInfoMap)
    (doc_id : String) (words : List String) (isTitle : Bool) :
    (∃ info, dget? (mergeDocToIndex main_index doc_info doc_id
        (addDocToIndex words) isTitle).2 doc_id = some info ∧
      (if isTitle then info.titleNorm else info.norm) =
        Real.sqrt (((addDocToIndex words).map
          (fun wt => (1 + Real.logb 10 (wt.2 : ℝ)) ^ 2)).sum)) ∧
    (∀ wt ∈ addDocToIndex words, 1 ≤ wt.2) ∧
    1.9 < (dgetD (mergeDocToIndex [] [] "d" (addDocToIndex ["a", "a", "b", "b", "b"]) false).2
      "d" (DocInfo.mk "" 0 0)).norm ∧
    (dgetD (mergeDocToIndex [] [] "d" (addDocToIndex ["a", "a", "b", "b", "b"]) false).2
      "d" (DocInfo.mk "" 0 0)).norm < 2 := by
  refine ⟨?_, addDocToIndex_values words, ?_, ?_⟩
  · refine ⟨_, mergeDocToIndex_doc_info main_index doc_info doc_id
      (addDocToIndex words) isTitle, ?_⟩
    cases isTitle <;> simp
  · rw [stored_norm23]
    exact norm23_bounds.1
  · rw [stored_norm23]
    exact norm23_bounds.2

/-- Claim C2 counterexample: for term frequencies {2, 3} (document text
"a a b b b") the stored content normalization factor is not within 0.25 of
1.623, the value the claim gives as the approximate result — the factor is
sqrt((1 + log10 2)² + (1 + log10 3)²) ≈ 1.968 > 1.9. -/
theorem norm_factor_example_not_1623 :
    ¬ |(dgetD (mergeDocToIndex [] [] "d" (addDocToIndex ["a", "a", "b", "b", "b"]) false).2
      "d" (DocInfo.mk "" 0 0)).norm - 1.623| < 0.25 := by
  intro h
  rw [stored_norm23, abs_lt] at h
  have hlb := norm23_bounds.1
  have h2 := h.2
  norm_num at h2 hlb
  linarith

theorem foldl_dset_keys {α β : Type} (g : List (String × α) → String × β → α) :
    ∀ (l : List (String × β)) (m : List (String × α)) (d : String),
      d ∈ dkeys (l.foldl (fun m dv => dset m dv.1 (g m dv)) m) →
      d ∈ dkeys m ∨ d ∈ dkeys l := by
  intro l
  induction l with
  | nil =>
    intro m d h
    exact Or.inl h
  | cons dv l ih =>
    intro m d h
    simp only [List.foldl_cons] at h
    rcases ih (dset m dv.1 (g m dv)) d h with h' | h'
    · rw [mem_dkeys_dset] at h'
      rcases h' with h'' | h''
      · exact Or.inl h''
      · right
        rw [h'']
        simp [dkeys]
    · right
      simp only [dkeys, List.map_cons, List.mem_cons]
      right
      exact h'

theorem computeDocWordScore_keys (scores : List (String × ℝ)) (term : String)
    (qscore : ℝ) (index : InvIndex) (doc_info : DocInfoMap) (isTitle : Bool) (d : String)
    (h : d ∈ dkeys (computeDocWordScore scores term qscore index doc_info isTitle)) :
    d ∈ dkeys scores ∨ d ∈ dkeys (dgetD index term (0, [])).2 := by
  unfold computeDocWordScore at h
  exact foldl_dset_keys
    (fun m dv => dgetD m dv.1 0 + qscore *
      (if isTitle then (1 + Real.logb 10 ((dv.2 : ℕ) : ℝ)) /
          (dgetD doc_info dv.1 (DocInfo.mk "" 0 0)).titleNorm
        else (1 + Real.logb 10 ((dv.2 : ℕ) : ℝ)) /
          (dgetD doc_info dv.1 (DocInfo.mk "" 0 0)).norm))
    (dgetD index term (0, [])).2 scores d h

theorem evalFold_keys (index : InvIndex) (doc_info : DocInfoMap)
    (corpus_size : ℕ) (isTitle : Bool) :
    ∀ (ql : List (String × ℝ)) (st : List (String × ℝ) × ℝ) (d : String),
      d ∈ dkeys ((ql.foldl (evalStep index doc_info corpus_size isTitle) st).1) →
      d ∈ dkeys st.1 ∨ ∃ term, term ∈ dkeys ql ∧ (dget? index term).isSome ∧
        d ∈ dkeys (dgetD index term (0, [])).2 := by
  intro ql
  induction ql with
  | nil =>
    intro st d h
    exact Or.inl h
  | cons wp ql ih =>
    intro st d h
    simp only [List.foldl_cons] at h
    by_cases hidx : (dget? index wp.1).isSome
    · have hstep : evalStep index doc_info corpus_size isTitle st wp =
          (computeDocWordScore st.1 wp.1
            (computeQueryWordScore wp.1 wp.2 index corpus_size) index doc_info isTitle,
           st.2 + (computeQueryWordScore wp.1 wp.2 index corpus_size) ^ 2) := by
        rw [evalStep, if_pos hidx]
      rw [hstep] at h
      rcases ih _ d h with h' | h'
      · rcases computeDocWordScore_keys _ _ _ _ _ _ _ h' with h'' | h''
        · exact Or.inl h''
        · right
          exact ⟨wp.1, by simp [dkeys], hidx, h''⟩
      · rcases h' with ⟨term, ht, h2, h3⟩
        right
        refine ⟨term, ?_, h2, h3⟩
        simp only [dkeys, List.map_cons, List.mem_cons]
        right
        exact ht
    · have hstep : evalStep index doc_info corpus_size isTitle st wp =
          (st.1, st.2 + (0 : ℝ) ^ 2) := by
        rw [evalStep, if_neg hidx]
      rw [hstep] at h
      rcases ih _ d h with h' | h'
      · exact Or.inl h'
      · rcases h' with ⟨term, ht, h2, h3⟩
        right
        refine ⟨term, ?_, h2, h3⟩
        simp only [dkeys, List.map_cons, List.mem_cons]
        right
        exact ht

/-- Claim C6: the score map returned by `evaluateDocScores` contains an entry
only for documents that appear in the posting list of at least one term of
the (post-expansion, when expansion is on) query vector present in the index;
a document sharing no indexed query term never appears in the score map. -/
theorem evaluateDocScores_index_elimination (query_vec : QueryVec) (kv_model : KVModel)
    (index : InvIndex) (doc_info : DocInfoMap) (corpus_size : ℕ) (isTitle : Bool)
    (expand_query : Bool) (d : String)
    (h : ∀ term ∈ dkeys (if expand_query then expandQuery query_vec kv_model index 7
        else query_vec),
      (dget? index term).isSome → d ∉ dkeys (dgetD index term (0, [])).2) :
    d ∉ dkeys (evaluateDocScores query_vec kv_model index doc_info corpus_size isTitle
      expand_query) := by
  intro hd
  unfold evaluateDocScores at hd
  set ql := if expand_query then expandQuery query_vec kv_model index 7 else query_vec with hql
  set st := ql.foldl (evalStep index doc_info corpus_size isTitle) ([], 0) with hst
  have hkeys : d ∈ dkeys st.1 := by
    by_cases hq : 0 < Real.sqrt st.2
    · rw [if_pos hq] at hd
      have : dkeys (st.1.map (fun p => (p.1, p.2 / Real.sqrt st.2))) = dkeys st.1 := by
        simp only [dkeys, List.map_map]
        rfl
      rw [this] at hd
      exact hd
    · rw [if_neg hq] at hd
      exact hd
  rcases evalFold_keys index doc_info corpus_size isTitle ql ([], 0) d hkeys with h' | h'
  · simp [dkeys] at h'
  · rcases h' with ⟨term, ht, h2, h3⟩
    exact h term ht h2 h3

theorem evaluateDocScores_index_elimination_witness :
    (∀ term ∈ dkeys [("t", (1 : ℝ))],
      (dget? [("t", (1, [("D", 1)]))] term).isSome →
        "X" ∉ dkeys (dgetD [("t", (1, [("D", 1)]))] term (0, [])).2) ∧
    "X" ∉ dkeys (evaluateDocScores [("t", 1)] (fun _ _ => none) [("t", (1, [("D", 1)]))]
      [] 3 false false) :=
  ⟨by decide, evaluateDocScores_index_elimination [("t", 1)] (fun _ _ => none)
    [("t", (1, [("D", 1)]))] [] 3 false false "X" (by decide)⟩

/-- Invariant of the inverted index during construction: every entry's stored
document frequency equals the number of (distinct) documents in its posting
map, and all posting-map keys come from already-merged document IDs. -/
def IndexInv (idx : InvIndex) (ids : List String) : Prop :=
  ∀ w e, dget? idx w = some e →
    e.1 = (dkeys e.2).length ∧ (dkeys e.2).Nodup ∧ ∀ d ∈ dkeys e.2, d ∈ ids

/-- Invariant tying posting lists to `doc_info`: every document appearing in
some posting list has a stored normalization factor (content for the content
index, title for the title index) of at least 1. -/
def NormInv (idx : InvIndex) (doc_info : DocInfoMap) (isTitle : Bool) : Prop :=
  ∀ w e, dget? idx w = some e → ∀ d ∈ dkeys e.2,
    ∃ info, dget? doc_info d = some info ∧
      1 ≤ (if isTitle then info.titleNorm else info.norm)

theorem mergeFold_get_notMem (doc_id : String) (temp : PostingMap) :
    ∀ (idx : InvIndex) (w : String), w ∉ dkeys temp →
      dget? (temp.foldl (mergeStep doc_id) idx) w = dget? idx w := by
  induction temp with
  | nil =>
    intro idx w _
    rfl
  | cons wt t ih =>
    intro idx w hw
    have hw1 : w ≠ wt.1 := by
      intro hh
      exact hw (by simp [dkeys, hh])
    have hw2 : w ∉ dkeys t := by
      intro hh
      apply hw
      simp only [dkeys, List.map_cons, List.mem_cons]
      right
      exact hh
    simp only [List.foldl_cons]
    rw [ih (mergeStep doc_id idx wt) w hw2]
    exact dget?_dset_ne idx _ hw1

theorem mergeFold_get_mem (doc_id : String) (temp : PostingMap) :
    ∀ (idx : InvIndex) (w : String), (dkeys temp).Nodup → w ∈ dkeys temp →
      ∃ tf, (w, tf) ∈ temp ∧
        dget? (temp.foldl (mergeStep doc_id) idx) w =
          some ((dgetD idx w (0, [])).1 + 1, dset (dgetD idx w (0, [])).2 doc_id tf) := by
  induction temp with
  | nil =>
    intro idx w _ hw
    simp [dkeys] at hw
  | cons wt t ih =>
    intro idx w hn hw
    have hn1 : wt.1 ∉ dkeys t := by
      simp only [dkeys, List.map_cons, List.nodup_cons] at hn
      exact hn.1
    have hn2 : (dkeys t).Nodup := by
      simp only [dkeys, List.map_cons, List.nodup_cons] at hn
      exact hn.2
    by_cases hww : w = wt.1
    · subst hww
      refine ⟨wt.2, by simp, ?_⟩
      simp only [List.foldl_cons]
      rw [mergeFold_get_notMem doc_id t (mergeStep doc_id idx wt) wt.1 hn1]
      exact dget?_dset_self idx wt.1 _
    · have hwt : w ∈ dkeys t := by
        simp only [dkeys, List.map_cons, List.mem_cons] at hw
        rcases hw with h | h
        · exact absurd h hww
        · exact h
      obtain ⟨tf, htf, hget⟩ := ih (mergeStep doc_id idx wt) w hn2 hwt
      refine ⟨tf, List.mem_cons_of_mem _ htf, ?_⟩
      simp only [List.foldl_cons]
      rw [hget]
      have hstep : dget? (mergeStep doc_id idx wt) w = dget? idx w :=
        dget?_dset_ne idx _ hww
      simp only [dgetD, hstep]

theorem mergeStep_fold_IndexInv (doc_id : String) (temp : PostingMap) (idx : InvIndex)
    (ids : List String) (hinv : IndexInv idx ids) (hid : doc_id ∉ ids)
    (hn : (dkeys temp).Nodup) :
    IndexInv (temp.foldl (mergeStep doc_id) idx) (doc_id :: ids) := by
  intro w e hw
  by_cases hmem : w ∈ dkeys temp
  · obtain ⟨tf, htf, hget⟩ := mergeFold_get_mem doc_id temp idx w hn hmem
    rw [hget] at hw
    injection hw with hw
    subst hw
    cases hidx : dget? idx w with
    | none =>
      have hD : dgetD idx w ((0 : ℕ), ([] : PostingMap)) = ((0 : ℕ), ([] : PostingMap)) := by
        rw [dgetD, hidx]
        rfl
      rw [hD]
      refine ⟨by simp [dset, dkeys], by simp [dset, dkeys], ?_⟩
      intro d hd
      simp [dset, dkeys] at hd
      rw [hd]
      exact List.mem_cons_self _ _
    | some e₀ =>
      have hD : dgetD idx w ((0 : ℕ), ([] : PostingMap)) = e₀ := by
        rw [dgetD, hidx]
        rfl
      rw [hD]
      obtain ⟨h1, h2, h3⟩ := hinv w e₀ hidx
      have hd0 : doc_id ∉ dkeys e₀.2 := fun hh => hid (h3 _ hh)
      refine ⟨?_, ?_, ?_⟩
      · show e₀.1 + 1 = (dkeys (dset e₀.2 doc_id tf)).length
        rw [dkeys_dset_of_not_mem _ _ _ hd0]
        simp [h1]
      · show (dkeys (dset e₀.2 doc_id tf)).Nodup
        exact nodup_dkeys_dset _ _ _ h2
      · intro d hd
        rcases (mem_dkeys_dset e₀.2 doc_id d tf).mp hd with hd | hd
        · exact List.mem_cons_of_mem _ (h3 d hd)
        · rw [hd]
          exact List.mem_cons_self _ _
  · rw [mergeFold_get_notMem doc_id temp idx w hmem] at hw
    obtain ⟨h1, h2, h3⟩ := hinv w e hw
    exact ⟨h1, h2, fun d hd => List.mem_cons_of_mem _ (h3 d hd)⟩

theorem norm_sum_ge_one (temp : PostingMap) (hne : temp ≠ [])
    (hv : ∀ p ∈ temp, 1 ≤ p.2) :
    1 ≤ Real.sqrt ((temp.map (fun wt => (1 + Real.logb 10 (wt.2 : ℝ)) ^ 2)).sum) := by
  rw [Real.le_sqrt' (by norm_num)]
  cases temp with
  | nil => exact absurd rfl hne
  | cons wt t =>
    simp only [List.map_cons, List.sum_cons]
    have h1 : 1 ≤ (1 + Real.logb 10 (wt.2 : ℝ)) ^ 2 := by
      have hlb : 0 ≤ Real.logb 10 (wt.2 : ℝ) := by
        apply Real.logb_nonneg (by norm_num)
        exact_mod_cast hv wt (List.mem_cons_self _ _)
      nlinarith
    have h2 : 0 ≤ (t.map (fun wt => (1 + Real.logb 10 (wt.2 : ℝ)) ^ 2)).sum := by
      apply List.sum_nonneg
      intro x hx
      simp only [List.mem_map] at hx
      obtain ⟨wt', _, hw'⟩ := hx
      rw [← hw']
      positivity
    norm_num
    linarith

theorem mergeDocToIndex_fst (main_index : InvIndex) (doc_info : DocInfoMap)
    (doc_id : String) (temp : PostingMap) (isTitle : Bool) :
    (mergeDocToIndex main_index doc_info doc_id temp isTitle).1 =
      temp.foldl (mergeStep doc_id) main_index := by
  cases isTitle <;> simp [mergeDocToIndex, mergeFold_fst]

theorem mergeDocToIndex_snd (main_index : InvIndex) (doc_info : DocInfoMap)
    (doc_id : String) (temp : PostingMap) (isTitle : Bool) :
    ∃ info', (mergeDocToIndex main_index doc_info doc_id temp isTitle).2 =
      dset doc_info doc_id info' :=
  ⟨_, rfl⟩

theorem mergeDocToIndex_doc_info_other (main_index : InvIndex) (doc_info : DocInfoMap)
    (doc_id : String) (temp : PostingMap) (isTitle : Bool) (d : String) (hd : d ≠ doc_id) :
    dget? (mergeDocToIndex main_index doc_info doc_id temp isTitle).2 d =
      dget? doc_info d := by
  obtain ⟨info', hinfo⟩ := mergeDocToIndex_snd main_index doc_info doc_id temp isTitle
  rw [hinfo]
  exact dget?_dset_ne doc_info info' hd

theorem IndexInv_mono (idx : InvIndex) (ids ids' : List String)
    (h : IndexInv idx ids) (hsub : ∀ x ∈ ids, x ∈ ids') : IndexInv idx ids' := by
  intro w e hw
  obtain ⟨h1, h2, h3⟩ := h w e hw
  exact ⟨h1, h2, fun d hd => hsub d (h3 d hd)⟩

theorem NormInv_dset_other (idx : InvIndex) (doc_info : DocInfoMap) (b : Bool)
    (ids : List String) (hinv : IndexInv idx ids) (hnorm : NormInv idx doc_info b)
    (doc_id : String) (hid : doc_id ∉ ids) (info : DocInfo) :
    NormInv idx (dset doc_info doc_id info) b := by
  intro w e hw d hd
  obtain ⟨i0, h1, h2⟩ := hnorm w e hw d hd
  have hdne : d ≠ doc_id := by
    intro hh
    obtain ⟨_, _, h3⟩ := hinv w e hw
    exact hid (hh ▸ h3 d hd)
  refine ⟨i0, ?_, h2⟩
  rw [dget?_dset_ne doc_info info hdne]
  exact h1

theorem NormInv_keep_norm (idx : InvIndex) (doc_info : DocInfoMap) (doc_id : String)
    (nm : String) (x : ℝ)
    (hnorm : NormInv idx doc_info false) :
    NormInv idx (dset doc_info doc_id
      (DocInfo.mk nm (dgetD doc_info doc_id (DocInfo.mk "" 0 0)).norm x)) false := by
  intro w e hw d hd
  obtain ⟨i0, h1, h2⟩ := hnorm w e hw d hd
  by_cases hdd : d = doc_id
  · subst hdd
    refine ⟨_, dget?_dset_self _ _ _, ?_⟩
    have hD : dgetD doc_info d (DocInfo.mk "" 0 0) = i0 := by
      rw [dgetD, h1]
      rfl
    rw [hD]
    simpa using h2
  · refine ⟨i0, ?_, h2⟩
    rw [dget?_dset_ne _ _ hdd]
    exact h1

theorem NormInv_keep_titleNorm (idx : InvIndex) (doc_info : DocInfoMap) (doc_id : String)
    (nm : String) (x : ℝ)
    (hnorm : NormInv idx doc_info true) :
    NormInv idx (dset doc_info doc_id
      (DocInfo.mk nm x (dgetD doc_info doc_id (DocInfo.mk "" 0 0)).titleNorm)) true := by
  intro w e hw d hd
  obtain ⟨i0, h1, h2⟩ := hnorm w e hw d hd
  by_cases hdd : d = doc_id
  · subst hdd
    refine ⟨_, dget?_dset_self _ _ _, ?_⟩
    have hD : dgetD doc_info d (DocInfo.mk "" 0 0) = i0 := by
      rw [dgetD, h1]
      rfl
    rw [hD]
    simpa using h2
  · refine ⟨i0, ?_, h2⟩
    rw [dget?_dset_ne _ _ hdd]
    exact h1

theorem mergeDocToIndex_NormInv (idx : InvIndex) (doc_info : DocInfoMap) (doc_id : String)
    (temp : PostingMap) (isTitle : Bool) (ids : List String)
    (hinv : IndexInv idx ids) (hnorm : NormInv idx doc_info isTitle) (hid : doc_id ∉ ids)
    (hn : (dkeys temp).Nodup) (hv : ∀ p ∈ temp, 1 ≤ p.2) :
    NormInv (mergeDocToIndex idx doc_info doc_id temp isTitle).1
      (mergeDocToIndex idx doc_info doc_id temp isTitle).2 isTitle := by
  intro w e hw d hd
  rw [mergeDocToIndex_fst] at hw
  by_cases hmem : w ∈ dkeys temp
  · obtain ⟨tf, htf, hget⟩ := mergeFold_get_mem doc_id temp idx w hn hmem
    rw [hget] at hw
    injection hw with hw
    subst hw
    rcases (mem_dkeys_dset (dgetD idx w (0, [])).2 doc_id d tf).mp hd with hd' | hd'
    · cases hidx : dget? idx w with
      | none =>
        rw [dgetD, hidx] at hd'
        simp [dkeys] at hd'
      | some e₀ =>
        rw [dgetD, hidx] at hd'
        simp only [Option.getD_some] at hd'
        obtain ⟨_, _, h3⟩ := hinv w e₀ hidx
        have hdne : d ≠ doc_id := by
          intro hh
          exact hid (hh ▸ h3 d hd')
        obtain ⟨i0, hi1, hi2⟩ := hnorm w e₀ hidx d hd'
        refine ⟨i0, ?_, hi2⟩
        rw [mergeDocToIndex_doc_info_other idx doc_info doc_id temp isTitle d hdne]
        exact hi1
    · rw [hd']
      refine ⟨_, mergeDocToIndex_doc_info idx doc_info doc_id temp isTitle, ?_⟩
      have hne : temp ≠ [] := by
        intro hh
        rw [hh] at hmem
        simp [dkeys] at hmem
      have hbound := norm_sum_ge_one temp hne hv
      cases isTitle <;> simpa using hbound
  · rw [mergeFold_get_notMem doc_id temp idx w hmem] at hw
    obtain ⟨_, _, h3⟩ := hinv w e hw
    have hdne : d ≠ doc_id := by
      intro hh
      exact hid (hh ▸ h3 d hd)
    obtain ⟨i0, hi1, hi2⟩ := hnorm w e hw d hd
    refine ⟨i0, ?_, hi2⟩
    rw [mergeDocToIndex_doc_info_other idx doc_info doc_id temp isTitle d hdne]
    exact hi1

theorem mergeDocToIndex_snd_content (main_index : InvIndex) (doc_info : DocInfoMap)
    (doc_id : String) (temp : PostingMap) :
    ∃ x, (mergeDocToIndex main_index doc_info doc_id temp false).2 =
      dset doc_info doc_id
        (DocInfo.mk (dgetD doc_info doc_id (DocInfo.mk "" 0 0)).name x
          (dgetD doc_info doc_id (DocInfo.mk "" 0 0)).titleNorm) :=
  ⟨_, rfl⟩

theorem mergeDocToIndex_snd_title (main_index : InvIndex) (doc_info : DocInfoMap)
    (doc_id : String) (temp : PostingMap) :
    ∃ x, (mergeDocToIndex main_index doc_info doc_id temp true).2 =
      dset doc_info doc_id
        (DocInfo.mk (dgetD doc_info doc_id (DocInfo.mk "" 0 0)).name
          (dgetD doc_info doc_id (DocInfo.mk "" 0 0)).norm x) :=
  ⟨_, rfl⟩

theorem processDoc_inv (is_zoned : Bool) (st : InvIndex × InvIndex × DocInfoMap)
    (doc : CorpusDoc) (ids : List String)
    (h1 : IndexInv st.1 ids) (h2 : IndexInv st.2.1 ids)
    (h3 : NormInv st.1 st.2.2 false) (h4 : NormInv st.2.1 st.2.2 true)
    (hid : doc.id ∉ ids) :
    IndexInv (processDoc is_zoned st doc).1 (doc.id :: ids) ∧
    IndexInv (processDoc is_zoned st doc).2.1 (doc.id :: ids) ∧
    NormInv (processDoc is_zoned st doc).1 (processDoc is_zoned st doc).2.2 false ∧
    NormInv (processDoc is_zoned st doc).2.1 (processDoc is_zoned st doc).2.2 true := by
  have hC1 : IndexInv (mergeDocToIndex st.1 (dset st.2.2 doc.id (DocInfo.mk doc.title 0 0))
      doc.id (addDocToIndex doc.contentWords) false).1 (doc.id :: ids) := by
    rw [mergeDocToIndex_fst]
    exact mergeStep_fold_IndexInv doc.id _ st.1 ids h1 hid (addDocToIndex_nodup _)
  have hn3' : NormInv st.1 (dset st.2.2 doc.id (DocInfo.mk doc.title 0 0)) false :=
    NormInv_dset_other st.1 st.2.2 false ids h1 h3 doc.id hid _
  have hn4' : NormInv st.2.1 (dset st.2.2 doc.id (DocInfo.mk doc.title 0 0)) true :=
    NormInv_dset_other st.2.1 st.2.2 true ids h2 h4 doc.id hid _
  have hC3 : NormInv (mergeDocToIndex st.1 (dset st.2.2 doc.id (DocInfo.mk doc.title 0 0))
      doc.id (addDocToIndex doc.contentWords) false).1
      (mergeDocToIndex st.1 (dset st.2.2 doc.id (DocInfo.mk doc.title 0 0))
      doc.id (addDocToIndex doc.contentWords) false).2 false :=
    mergeDocToIndex_NormInv st.1 _ doc.id _ false ids h1 hn3' hid
      (addDocToIndex_nodup _) (addDocToIndex_values _)
  have hC4 : NormInv st.2.1 (mergeDocToIndex st.1
      (dset st.2.2 doc.id (DocInfo.mk doc.title 0 0))
      doc.id (addDocToIndex doc.contentWords) false).2 true := by
    obtain ⟨x, hx⟩ := mergeDocToIndex_snd_content st.1
      (dset st.2.2 doc.id (DocInfo.mk doc.title 0 0)) doc.id (addDocToIndex doc.contentWords)
    rw [hx]
    exact NormInv_keep_titleNorm st.2.1 _ doc.id _ x hn4'
  cases is_zoned with
  | false =>
    exact ⟨hC1, IndexInv_mono st.2.1 ids (doc.id :: ids) h2
      (fun x hx => List.mem_cons_of_mem _ hx), hC3, hC4⟩
  | true =>
    have hT2 : IndexInv (mergeDocToIndex st.2.1 (mergeDocToIndex st.1
        (dset st.2.2 doc.id (DocInfo.mk doc.title 0 0))
        doc.id (addDocToIndex doc.contentWords) false).2
        doc.id (addTitleToIndex doc.titleWords) true).1 (doc.id :: ids) := by
      rw [mergeDocToIndex_fst]
      exact mergeStep_fold_IndexInv doc.id _ st.2.1 ids h2 hid (addDocToIndex_nodup _)
    have hT4 : NormInv (mergeDocToIndex st.2.1 (mergeDocToIndex st.1
        (dset st.2.2 doc.id (DocInfo.mk doc.title 0 0))
        doc.id (addDocToIndex doc.contentWords) false).2
        doc.id (addTitleToIndex doc.titleWords) true).1
        (mergeDocToIndex st.2.1 (mergeDocToIndex st.1
        (dset st.2.2 doc.id (DocInfo.mk doc.title 0 0))
        doc.id (addDocToIndex doc.contentWords) false).2
        doc.id (addTitleToIndex doc.titleWords) true).2 true :=
      mergeDocToIndex_NormInv st.2.1 _ doc.id _ true ids h2 hC4 hid
        (addDocToIndex_nodup _) (addDocToIndex_values _)
    have hT3 : NormInv (mergeDocToIndex st.1
        (dset st.2.2 doc.id (DocInfo.mk doc.title 0 0))
        doc.id (addDocToIndex doc.contentWords) false).1
        (mergeDocToIndex st.2.1 (mergeDocToIndex st.1
        (dset st.2.2 doc.id (DocInfo.mk doc.title 0 0))
        doc.id (addDocToIndex doc.contentWords) false).2
        doc.id (addTitleToIndex doc.titleWords) true).2 false := by
      obtain ⟨x, hx⟩ := mergeDocToIndex_snd_title st.2.1 (mergeDocToIndex st.1
        (dset st.2.2 doc.id (DocInfo.mk doc.title 0 0))
        doc.id (addDocToIndex doc.contentWords) false).2 doc.id
        (addTitleToIndex doc.titleWords)
      rw [hx]
      exact NormInv_keep_norm _ _ doc.id _ x hC3
    exact ⟨hC1, hT2, hT3, hT4⟩

theorem buildFold_inv (is_zoned : Bool) :
    ∀ (corpus : List CorpusDoc) (st : InvIndex × InvIndex × DocInfoMap) (ids : List String),
      IndexInv st.1 ids → IndexInv st.2.1 ids → NormInv st.1 st.2.2 false →
      NormInv st.2.1 st.2.2 true →
      (corpus.map CorpusDoc.id).Nodup →
      (∀ doc ∈ corpus, doc.id ∉ ids) →
      ∃ ids', IndexInv (corpus.foldl (processDoc is_zoned) st).1 ids' ∧
        IndexInv (corpus.foldl (processDoc is_zoned) st).2.1 ids' ∧
        NormInv (corpus.foldl (processDoc is_zoned) st).1
          (corpus.foldl (processDoc is_zoned) st).2.2 false ∧
        NormInv (corpus.foldl (processDoc is_zoned) st).2.1
          (corpus.foldl (processDoc is_zoned) st).2.2 true := by
  intro corpus
  induction corpus with
  | nil =>
    intro st ids h1 h2 h3 h4 _ _
    exact ⟨ids, h1, h2, h3, h4⟩
  | cons doc corpus ih =>
    intro st ids h1 h2 h3 h4 hnd hfresh
    have hid : doc.id ∉ ids := hfresh doc (List.mem_cons_self _ _)
    obtain ⟨p1, p2, p3, p4⟩ := processDoc_inv is_zoned st doc ids h1 h2 h3 h4 hid
    have hnd1 : doc.id ∉ corpus.map CorpusDoc.id := by
      simp only [List.map_cons, List.nodup_cons] at hnd
      exact hnd.1
    have hnd2 : (corpus.map CorpusDoc.id).Nodup := by
      simp only [List.map_cons, List.nodup_cons] at hnd
      exact hnd.2
    have hfresh' : ∀ doc' ∈ corpus, doc'.id ∉ doc.id :: ids := by
      intro doc' hdoc'
      simp only [List.mem_cons]
      rintro (h | h)
      · exact hnd1 (h ▸ List.mem_map_of_mem CorpusDoc.id hdoc')
      · exact hfresh doc' (List.mem_cons_of_mem _ hdoc') h
    simp only [List.foldl_cons]
    exact ih (processDoc is_zoned st doc) (doc.id :: ids) p1 p2 p3 p4 hnd2 hfresh'

/-- Claim C5: after index construction over a corpus in which every document
ID appears exactly once, every term of the pre-champion-list-trim inverted
index (the content index accumulated by the `processDoc` corpus fold inside
`createIndexFromCorpus`, before any champion-list trimming) stores a document
frequency `index[term][0]` equal to the number of distinct document IDs in
its posting map `index[term][1]`, whose keys are pairwise distinct. -/
theorem df_eq_posting_count (corpus : List CorpusDoc) (is_zoned : Bool)
    (hnd : (corpus.map CorpusDoc.id).Nodup) :
    ∀ w e, dget? (corpus.foldl (processDoc is_zoned) ([], [], [])).1 w = some e →
      e.1 = (dkeys e.2).length ∧ (dkeys e.2).Nodup := by
  have hinit1 : IndexInv ([] : InvIndex) [] := by
    intro w e hw
    simp [dget?] at hw
  have hinit3 : NormInv ([] : InvIndex) [] false := by
    intro w e hw
    simp [dget?] at hw
  have hinit4 : NormInv ([] : InvIndex) [] true := by
    intro w e hw
    simp [dget?] at hw
  obtain ⟨ids', hI, _, _, _⟩ := buildFold_inv is_zoned corpus ([], [], []) []
    hinit1 hinit1 hinit3 hinit4 hnd (by simp)
  intro w e hw
  obtain ⟨a, b, _⟩ := hI w e hw
  exact ⟨a, b⟩

theorem df_eq_posting_count_witness :
    ((([CorpusDoc.mk "1" "T1" ["x"] ["t"], CorpusDoc.mk "2" "T2" ["y"] ["u"]]).map
      CorpusDoc.id).Nodup) ∧
    (∀ w e, dget? (([CorpusDoc.mk "1" "T1" ["x"] ["t"],
        CorpusDoc.mk "2" "T2" ["y"] ["u"]]).foldl (processDoc false) ([], [], [])).1 w =
        some e → e.1 = (dkeys e.2).length ∧ (dkeys e.2).Nodup) :=
  ⟨by decide, df_eq_posting_count
    [CorpusDoc.mk "1" "T1" ["x"] ["t"], CorpusDoc.mk "2" "T2" ["y"] ["u"]] false (by decide)⟩

theorem championList_keys_subset (pl : PostingMap) (n : ℕ) (d : String)
    (hd : d ∈ dkeys (createChampionList pl n)) : d ∈ dkeys pl := by
  simp only [dkeys, List.mem_map] at hd
  obtain ⟨p, hp, hpd⟩ := hd
  unfold createChampionList at hp
  rcases mem_foldl_dset _ _ _ hp with h | h
  · simp at h
  · have h1 : p ∈ sortDescBy (fun q : String × ℕ => q.2) pl := (List.take_sublist n _).mem h
    have h2 : p ∈ pl := (perm_sortDescBy _ _).mem_iff.mp h1
    rw [← hpd]
    exact List.mem_map_of_mem Prod.fst h2

/-- Claim C9: in the zoned index built by `createIndexFromCorpus` from a
corpus with pairwise-distinct document IDs, every document occurring in any
posting list of the (champion-trimmed) content index has a stored content
normalization factor ≥ 1 (in particular nonzero) in `doc_info`, and every
document in any title posting list likewise has title factor ≥ 1, so the
division by the stored factor in `computeDocWordScore` never divides by zero
for a document reached through a posting list. -/
theorem norm_factors_ge_one (corpus : List CorpusDoc)
    (hnd : (corpus.map CorpusDoc.id).Nodup) :
    (∀ w e, dget? (createIndexFromCorpus corpus true).1 w = some e →
      ∀ d ∈ dkeys e.2, ∃ info,
        dget? (createIndexFromCorpus corpus true).2.2 d = some info ∧
          1 ≤ info.norm ∧ info.norm ≠ 0) ∧
    (∀ w e, dget? (createIndexFromCorpus corpus true).2.1 w = some e →
      ∀ d ∈ dkeys e.2, ∃ info,
        dget? (createIndexFromCorpus corpus true).2.2 d = some info ∧
          1 ≤ info.titleNorm ∧ info.titleNorm ≠ 0) := by
  have hinit1 : IndexInv ([] : InvIndex) [] := by
    intro w e hw
    simp [dget?] at hw
  have hinit3 : NormInv ([] : InvIndex) [] false := by
    intro w e hw
    simp [dget?] at hw
  have hinit4 : NormInv ([] : InvIndex) [] true := by
    intro w e hw
    simp [dget?] at hw
  obtain ⟨ids', _, _, hN3, hN4⟩ := buildFold_inv true corpus ([], [], []) []
    hinit1 hinit1 hinit3 hinit4 hnd (by simp)
  constructor
  · intro w e hw
    have hw' : dget? (trimIndexChampions
        (corpus.foldl (processDoc true) ([], [], [])).1 100) w = some e := hw
    rw [dget?_trimIndexChampions] at hw'
    cases hidx : dget? (corpus.foldl (processDoc true) ([], [], [])).1 w with
    | none =>
      rw [hidx] at hw'
      simp at hw'
    | some e₀ =>
      rw [hidx] at hw'
      simp only [Option.map_some'] at hw'
      injection hw' with hw'
      intro d hd
      rw [← hw'] at hd
      have hd' : d ∈ dkeys e₀.2 := championList_keys_subset e₀.2 100 d hd
      obtain ⟨info, hi1, hi2⟩ := hN3 w e₀ hidx d hd'
      have hge : (1 : ℝ) ≤ info.norm := by simpa using hi2
      refine ⟨info, hi1, hge, ?_⟩
      intro hh
      rw [hh] at hge
      linarith
  · intro w e hw
    have hw' : dget? (corpus.foldl (processDoc true) ([], [], [])).2.1 w = some e := hw
    intro d hd
    obtain ⟨info, hi1, hi2⟩ := hN4 w e hw' d hd
    have hge : (1 : ℝ) ≤ info.titleNorm := by simpa using hi2
    refine ⟨info, hi1, hge, ?_⟩
    intro hh
    rw [hh] at hge
    linarith

theorem norm_factors_ge_one_witness :
    ((([CorpusDoc.mk "1" "T1" ["x"] ["t"], CorpusDoc.mk "2" "T2" ["y"] ["u"]]).map
      CorpusDoc.id).Nodup) ∧
    ((∀ w e, dget? (createIndexFromCorpus
        [CorpusDoc.mk "1" "T1" ["x"] ["t"], CorpusDoc.mk "2" "T2" ["y"] ["u"]] true).1 w =
        some e →
      ∀ d ∈ dkeys e.2, ∃ info,
        dget? (createIndexFromCorpus
          [CorpusDoc.mk "1" "T1" ["x"] ["t"], CorpusDoc.mk "2" "T2" ["y"] ["u"]] true).2.2 d =
          some info ∧ 1 ≤ info.norm ∧ info.norm ≠ 0) ∧
    (∀ w e, dget? (createIndexFromCorpus
        [CorpusDoc.mk "1" "T1" ["x"] ["t"], CorpusDoc.mk "2" "T2" ["y"] ["u"]] true).2.1 w =
        some e →
      ∀ d ∈ dkeys e.2, ∃ info,
        dget? (createIndexFromCorpus
          [CorpusDoc.mk "1" "T1" ["x"] ["t"], CorpusDoc.mk "2" "T2" ["y"] ["u"]] true).2.2 d =
          some info ∧ 1 ≤ info.titleNorm ∧ info.titleNorm ≠ 0)) :=
  ⟨by decide, norm_factors_ge_one
    [CorpusDoc.mk "1" "T1" ["x"] ["t"], CorpusDoc.mk "2" "T2" ["y"] ["u"]] (by decide)⟩
